import Mathlib

/-!
Verification of the `rad-detiler` framebuffer detiler (`src/main.c`).

The program converts a GPU-tiled 1280x768 framebuffer dump (32-bit words)
into raster order.  We embed the constant lookup tables, the micro-tile
decoder `decode_utile`, the macro-tile decoder `decode_mtile`, and the frame
loop of `main` as executable Lean functions over `Nat`-indexed word buffers
(`Nat → Nat`), with the C `assert` calls modelled as `Option`/abort results.
-/

/-- `WIDTH` from `src/main.c` line 14. -/
def WIDTH : Nat := 1280

/-- `HEIGHT` from `src/main.c` line 15. -/
def HEIGHT : Nat := 768

/-- `utile_decoder`, `src/main.c` lines 23-35. -/
def utile_decoder : List (List Nat) :=
  [[0, 1, 2, 3, 8, 9, 10, 11],
   [4, 5, 6, 7, 12, 13, 14, 15],
   [16, 17, 18, 19, 24, 25, 26, 27],
   [20, 21, 22, 23, 28, 29, 30, 31],
   [32, 33, 34, 35, 40, 41, 42, 43],
   [36, 37, 38, 39, 44, 45, 46, 47],
   [48, 49, 50, 51, 56, 57, 58, 59],
   [52, 53, 54, 55, 60, 61, 62, 63]]

/-- `mtile_decoder_0x`, `src/main.c` lines 37-47 (even-row primary table). -/
def mtile_decoder_0x : List (List Nat) :=
  [[0, 1, 2, 3],
   [4, 5, 6, 7],
   [8, 9, 10, 11],
   [12, 13, 14, 15],
   [17, 16, 19, 18],
   [21, 20, 23, 22],
   [25, 24, 27, 26],
   [29, 28, 31, 30]]

/-- `mtile_decoder_0`, `src/main.c` lines 49-54 (even-row secondary table). -/
def mtile_decoder_0 : List (List Nat) :=
  [[0, 4, 2, 6, 1, 5, 3, 7],
   [1, 5, 3, 7, 0, 4, 2, 6],
   [2, 6, 0, 4, 3, 7, 1, 5],
   [3, 7, 1, 5, 2, 6, 0, 4]]

/-- `mtile_decoder_1x`, `src/main.c` lines 57-67 (odd-row primary table). -/
def mtile_decoder_1x : List (List Nat) :=
  [[2, 3, 0, 1],
   [6, 7, 4, 5],
   [10, 11, 8, 9],
   [14, 15, 12, 13],
   [19, 18, 17, 16],
   [23, 22, 21, 20],
   [27, 26, 25, 24],
   [31, 30, 29, 28]]

/-- `mtile_decoder_1`, `src/main.c` lines 69-74 (odd-row secondary table). -/
def mtile_decoder_1 : List (List Nat) :=
  [[1, 5, 3, 7, 0, 4, 2, 6],
   [0, 4, 2, 6, 1, 5, 3, 7],
   [3, 7, 1, 5, 2, 6, 0, 4],
   [2, 6, 0, 4, 3, 7, 1, 5]]

/-- Two-dimensional array access `t[r][c]` on a constant table. -/
def idx2 (t : List (List Nat)) (r c : Nat) : Nat := (t.getD r []).getD c 0

/-- The primary placement table selected by the row parity
(`mtile_decoder_0x` / `mtile_decoder_1x` chosen by `odd` in `decode_mtile`). -/
def primTab (odd : Nat) : List (List Nat) :=
  if odd = 0 then mtile_decoder_0x else mtile_decoder_1x

/-- The secondary placement table selected by the row parity
(`mtile_decoder_0` / `mtile_decoder_1` chosen by `odd` in `decode_mtile`). -/
def secTab (odd : Nat) : List (List Nat) :=
  if odd = 0 then mtile_decoder_0 else mtile_decoder_1

/-- A single store `s[a] = v` into a word buffer. -/
def upd (s : Nat → Nat) (a v : Nat) : Nat → Nat :=
  fun x => if x = a then v else s x

/-- A loop of stores: for each `k` in `l`, store value `g k` at address `f k`. -/
def wr1 (l : List Nat) (f g : Nat → Nat) (s : Nat → Nat) : Nat → Nat :=
  l.foldl (fun s k => upd s (f k) (g k)) s

/-- Two nested store loops. -/
def wr2 (l1 l2 : List Nat) (f g : Nat → Nat → Nat) (s : Nat → Nat) : Nat → Nat :=
  l1.foldl (fun s a => wr1 l2 (f a) (g a) s) s

/-- Three nested store loops. -/
def wr3 (l1 l2 l3 : List Nat) (f g : Nat → Nat → Nat → Nat) (s : Nat → Nat) :
    Nat → Nat :=
  l1.foldl (fun s a => wr2 l2 l3 (f a) (g a) s) s

/-- Four nested store loops. -/
def wr4 (l1 l2 l3 l4 : List Nat) (f g : Nat → Nat → Nat → Nat → Nat)
    (s : Nat → Nat) : Nat → Nat :=
  l1.foldl (fun s a => wr3 l2 l3 l4 (f a) (g a) s) s

/-- Five nested store loops. -/
def wr5 (l1 l2 l3 l4 l5 : List Nat) (f g : Nat → Nat → Nat → Nat → Nat → Nat)
    (s : Nat → Nat) : Nat → Nat :=
  l1.foldl (fun s a => wr4 l2 l3 l4 l5 (f a) (g a) s) s

/-- `decode_utile`, `src/main.c` lines 77-88: for each raster position
`(row, col)` of the 8x8 block, `out[row*8+col] = buf[utile_decoder[row][col]]`.
The C output array starts as the 64-entry scratch buffer; we start from the
all-zero buffer (every one of the 64 cells is written before any read). -/
def decode_utile (buf : Nat → Nat) : Nat → Nat :=
  wr2 (List.range 8) (List.range 8)
    (fun row col => row * 8 + col)
    (fun row col => buf (idx2 utile_decoder row col))
    (fun _ => 0)

/-- The search loops of `decode_mtile`, `src/main.c` lines 110-118: scan
`(ur, uc)` in lexicographic order for the first entry of the primary table
equal to `i`; if the loops exhaust, the C variables end at `ur = 8`,
`uc = 4` (the values that make the `assert` on line 119 fail). -/
def findPrim (odd i : Nat) : Nat × Nat :=
  match (List.range 32).find? (fun k => decide (idx2 (primTab odd) (k / 4) (k % 4) = i)) with
  | some k => (k / 4, k % 4)
  | none => (8, 4)

/-- The search loop of `decode_mtile`, `src/main.c` lines 120-125: scan `j`
for the first entry of row `colm` of the secondary table equal to `ur`; if
the loop exhausts, the C variable ends at `j = 8` (making the `assert` on
line 127 fail). -/
def findSec (odd colm ur : Nat) : Nat :=
  match (List.range 8).find? (fun j => decide (idx2 (secTab odd) colm j = ur)) with
  | some j => j
  | none => 8

/-- `decode_mtile`, `src/main.c` lines 91-136.  `buf` is the 2048-word input
slice, `row`/`col` the macro-tile grid coordinate, `base` the word offset of
the macro-tile's top-left corner in the output frame `out` (the C code gets
the pointer `&out[base]`).  The two `assert`s are modelled by returning
`none` when their condition fails. -/
def decode_mtile (buf : Nat → Nat) (row col base : Nat) (out : Nat → Nat) :
    Option (Nat → Nat) :=
  (List.range 32).foldl (fun acc i => acc.bind (fun s =>
    let utile := decode_utile (fun k => buf (i * 64 + k))
    let uruc := findPrim (row % 2) i
    if uruc.1 < 8 ∧ uruc.2 < 4 then
      let j := findSec (row % 2) (col % 4) uruc.1
      if j < 8 ∧ uruc.2 < 4 then
        some (wr2 (List.range 8) (List.range 8)
          (fun r c => base + (j * 8 * WIDTH + uruc.2 * 8) + r * WIDTH + c)
          (fun r c => utile (r * 8 + c)) s)
      else none
    else none)) (some out)

/-- The successful effect of one `decode_mtile` call, as a pure triple loop
of stores (utile index, row, column). -/
def mtilePure (buf : Nat → Nat) (row col base : Nat) (out : Nat → Nat) :
    Nat → Nat :=
  wr3 (List.range 32) (List.range 8) (List.range 8)
    (fun i r c => base + (findSec (row % 2) (col % 4) (findPrim (row % 2) i).1 * 8 * WIDTH
      + (findPrim (row % 2) i).2 * 8) + r * WIDTH + c)
    (fun i r c => decode_utile (fun k => buf (i * 64 + k)) (r * 8 + c))
    out

/-- The frame loop of `main`, `src/main.c` lines 169-179: iterate the
macro-tile grid in row-major order; each cell decodes from the current input
cursor (the C pointer `buf`, advanced by 2048 words per cell) into the
destination whose top-left corner is `out[(row*64)*WIDTH + col*32]`, starting
from the zeroed output buffer (`memset` on line 166). -/
def detile (buf : Nat → Nat) : Option (Nat → Nat) :=
  ((List.range (HEIGHT / 64)).foldl (fun st row =>
    (List.range (WIDTH / 32)).foldl (fun st col =>
      (st.1 + 2048,
       st.2.bind (decode_mtile (fun k => buf (st.1 + k)) row col
         (row * 64 * WIDTH + col * 32))))
      st)
    ((0, some (fun _ => 0)) : Nat × Option (Nat → Nat))).2

/-- The successful effect of the whole frame decode, as a pure five-deep
loop of stores (macro row, macro column, utile index, utile row, column). -/
def detilePure (buf : Nat → Nat) : Nat → Nat :=
  wr5 (List.range 12) (List.range 40) (List.range 32) (List.range 8) (List.range 8)
    (fun row col i r c => row * 64 * WIDTH + col * 32
      + (findSec (row % 2) (col % 4) (findPrim (row % 2) i).1 * 8 * WIDTH
        + (findPrim (row % 2) i).2 * 8) + r * WIDTH + c)
    (fun row col i r c =>
      decode_utile (fun k => buf ((row * 40 + col) * 2048 + (i * 64 + k))) (r * 8 + c))
    (fun _ => 0)

/-- Outcome of a run of `main`: a normal return with an error code, an
`assert` failure (process abort), or success with the decoded frame. -/
inductive MainResult : Type where
  | ok (out : Nat → Nat) : MainResult
  | err (code : Nat) : MainResult
  | abort : MainResult

/-- `main`, `src/main.c` lines 138-186, with the file system abstracted
away: `argc` is the argument count, `size` the byte size of the input file,
`buf` its word content.  `argc != 3` returns `EINVAL` (22); the `assert` on
line 162 aborts when `size` differs from `WIDTH*HEIGHT*4` bytes; otherwise
the frame loop runs and the decoded frame is written out. -/
def main_c (argc size : Nat) (buf : Nat → Nat) : MainResult :=
  if argc ≠ 3 then .err 22
  else if size = WIDTH * HEIGHT * 4 then
    match detile buf with
    | some out => .ok out
    | none => .abort
  else .abort

/-! ### Lemmas about loops of stores -/

theorem upd_self (s : Nat → Nat) (a v : Nat) : upd s a v a = v := by
  simp [upd]

theorem wr1_pres (l : List Nat) (f g : Nat → Nat) (s : Nat → Nat) (p v : Nat)
    (hs : s p = v) (h : ∀ a ∈ l, f a = p → g a = v) : wr1 l f g s p = v := by
  induction l generalizing s with
  | nil => exact hs
  | cons a t ih =>
    show wr1 t f g (upd s (f a) (g a)) p = v
    refine ih (upd s (f a) (g a)) ?_ (fun b hb hfb => h b (by simp [hb]) hfb)
    by_cases hfa : p = f a
    · simpa [upd, hfa] using h a (by simp) hfa.symm
    · simpa [upd, hfa] using hs

theorem wr1_mem (l : List Nat) (f g : Nat → Nat) (s : Nat → Nat) (k : Nat)
    (hk : k ∈ l) (h : ∀ a ∈ l, f a = f k → g a = g k) : wr1 l f g s (f k) = g k := by
  induction l generalizing s with
  | nil => cases hk
  | cons a t ih =>
    show wr1 t f g (upd s (f a) (g a)) (f k) = g k
    by_cases hkt : k ∈ t
    · exact ih (upd s (f a) (g a)) hkt (fun b hb hfb => h b (by simp [hb]) hfb)
    · have hka : k = a := by
        rcases List.mem_cons.mp hk with h1 | h1
        · exact h1
        · exact absurd h1 hkt
      subst hka
      exact wr1_pres t f g (upd s (f k) (g k)) (f k) (g k) (upd_self s (f k) (g k))
        (fun b hb hfb => h b (by simp [hb]) hfb)

theorem wr1_congr (l : List Nat) (f g g' : Nat → Nat) (s : Nat → Nat)
    (h : ∀ a ∈ l, g a = g' a) : wr1 l f g s = wr1 l f g' s := by
  induction l generalizing s with
  | nil => rfl
  | cons a t ih =>
    show wr1 t f g (upd s (f a) (g a)) = wr1 t f g' (upd s (f a) (g' a))
    rw [h a (by simp)]
    exact ih (upd s (f a) (g' a)) (fun b hb => h b (by simp [hb]))

theorem wr2_pres (l1 l2 : List Nat) (f g : Nat → Nat → Nat) (s : Nat → Nat) (p v : Nat)
    (hs : s p = v) (h : ∀ a ∈ l1, ∀ b ∈ l2, f a b = p → g a b = v) :
    wr2 l1 l2 f g s p = v := by
  induction l1 generalizing s with
  | nil => exact hs
  | cons a t ih =>
    show wr2 t l2 f g (wr1 l2 (f a) (g a) s) p = v
    refine ih (wr1 l2 (f a) (g a) s) ?_ (fun a' ha' b hb hfb => h a' (by simp [ha']) b hb hfb)
    exact wr1_pres l2 (f a) (g a) s p v hs (fun b hb hfb => h a (by simp) b hb hfb)

theorem wr2_mem (l1 l2 : List Nat) (f g : Nat → Nat → Nat) (s : Nat → Nat) (a b : Nat)
    (ha : a ∈ l1) (hb : b ∈ l2)
    (h : ∀ a' ∈ l1, ∀ b' ∈ l2, f a' b' = f a b → g a' b' = g a b) :
    wr2 l1 l2 f g s (f a b) = g a b := by
  induction l1 generalizing s with
  | nil => cases ha
  | cons a0 t ih =>
    show wr2 t l2 f g (wr1 l2 (f a0) (g a0) s) (f a b) = g a b
    by_cases hat : a ∈ t
    · exact ih (wr1 l2 (f a0) (g a0) s) hat
        (fun a' ha' b' hb' hfb => h a' (by simp [ha']) b' hb' hfb)
    · have haa : a = a0 := by
        rcases List.mem_cons.mp ha with h1 | h1
        · exact h1
        · exact absurd h1 hat
      subst haa
      refine wr2_pres t l2 f g (wr1 l2 (f a) (g a) s) (f a b) (g a b) ?_
        (fun a' ha' b' hb' hfb => h a' (by simp [ha']) b' hb' hfb)
      exact wr1_mem l2 (f a) (g a) s b hb (fun b' hb' hfb => h a (by simp) b' hb' hfb)

theorem wr2_congr (l1 l2 : List Nat) (f g g' : Nat → Nat → Nat) (s : Nat → Nat)
    (h : ∀ a ∈ l1, ∀ b ∈ l2, g a b = g' a b) : wr2 l1 l2 f g s = wr2 l1 l2 f g' s := by
  induction l1 generalizing s with
  | nil => rfl
  | cons a t ih =>
    show wr2 t l2 f g (wr1 l2 (f a) (g a) s) = wr2 t l2 f g' (wr1 l2 (f a) (g' a) s)
    rw [wr1_congr l2 (f a) (g a) (g' a) s (fun b hb => h a (by simp) b hb)]
    exact ih (wr1 l2 (f a) (g' a) s) (fun a' ha' b hb => h a' (by simp [ha']) b hb)

theorem wr3_pres (l1 l2 l3 : List Nat) (f g : Nat → Nat → Nat → Nat) (s : Nat → Nat)
    (p v : Nat) (hs : s p = v)
    (h : ∀ a ∈ l1, ∀ b ∈ l2, ∀ c ∈ l3, f a b c = p → g a b c = v) :
    wr3 l1 l2 l3 f g s p = v := by
  induction l1 generalizing s with
  | nil => exact hs
  | cons a t ih =>
    show wr3 t l2 l3 f g (wr2 l2 l3 (f a) (g a) s) p = v
    refine ih (wr2 l2 l3 (f a) (g a) s) ?_
      (fun a' ha' b hb c hc hfb => h a' (by simp [ha']) b hb c hc hfb)
    exact wr2_pres l2 l3 (f a) (g a) s p v hs (fun b hb c hc hfb => h a (by simp) b hb c hc hfb)

theorem wr3_mem (l1 l2 l3 : List Nat) (f g : Nat → Nat → Nat → Nat) (s : Nat → Nat)
    (a b c : Nat) (ha : a ∈ l1) (hb : b ∈ l2) (hc : c ∈ l3)
    (h : ∀ a' ∈ l1, ∀ b' ∈ l2, ∀ c' ∈ l3, f a' b' c' = f a b c → g a' b' c' = g a b c) :
    wr3 l1 l2 l3 f g s (f a b c) = g a b c := by
  induction l1 generalizing s with
  | nil => cases ha
  | cons a0 t ih =>
    show wr3 t l2 l3 f g (wr2 l2 l3 (f a0) (g a0) s) (f a b c) = g a b c
    by_cases hat : a ∈ t
    · exact ih (wr2 l2 l3 (f a0) (g a0) s) hat
        (fun a' ha' b' hb' c' hc' hfb => h a' (by simp [ha']) b' hb' c' hc' hfb)
    · have haa : a = a0 := by
        rcases List.mem_cons.mp ha with h1 | h1
        · exact h1
        · exact absurd h1 hat
      subst haa
      refine wr3_pres t l2 l3 f g (wr2 l2 l3 (f a) (g a) s) (f a b c) (g a b c) ?_
        (fun a' ha' b' hb' c' hc' hfb => h a' (by simp [ha']) b' hb' c' hc' hfb)
      exact wr2_mem l2 l3 (f a) (g a) s b c hb hc
        (fun b' hb' c' hc' hfb => h a (by simp) b' hb' c' hc' hfb)

theorem wr3_congr (l1 l2 l3 : List Nat) (f g g' : Nat → Nat → Nat → Nat) (s : Nat → Nat)
    (h : ∀ a ∈ l1, ∀ b ∈ l2, ∀ c ∈ l3, g a b c = g' a b c) :
    wr3 l1 l2 l3 f g s = wr3 l1 l2 l3 f g' s := by
  induction l1 generalizing s with
  | nil => rfl
  | cons a t ih =>
    show wr3 t l2 l3 f g (wr2 l2 l3 (f a) (g a) s) = wr3 t l2 l3 f g' (wr2 l2 l3 (f a) (g' a) s)
    rw [wr2_congr l2 l3 (f a) (g a) (g' a) s (fun b hb c hc => h a (by simp) b hb c hc)]
    exact ih (wr2 l2 l3 (f a) (g' a) s) (fun a' ha' b hb c hc => h a' (by simp [ha']) b hb c hc)

theorem wr4_pres (l1 l2 l3 l4 : List Nat) (f g : Nat → Nat → Nat → Nat → Nat)
    (s : Nat → Nat) (p v : Nat) (hs : s p = v)
    (h : ∀ a ∈ l1, ∀ b ∈ l2, ∀ c ∈ l3, ∀ d ∈ l4, f a b c d = p → g a b c d = v) :
    wr4 l1 l2 l3 l4 f g s p = v := by
  induction l1 generalizing s with
  | nil => exact hs
  | cons a t ih =>
    show wr4 t l2 l3 l4 f g (wr3 l2 l3 l4 (f a) (g a) s) p = v
    refine ih (wr3 l2 l3 l4 (f a) (g a) s) ?_
      (fun a' ha' b hb c hc d hd hfb => h a' (by simp [ha']) b hb c hc d hd hfb)
    exact wr3_pres l2 l3 l4 (f a) (g a) s p v hs
      (fun b hb c hc d hd hfb => h a (by simp) b hb c hc d hd hfb)

theorem wr4_mem (l1 l2 l3 l4 : List Nat) (f g : Nat → Nat → Nat → Nat → Nat)
    (s : Nat → Nat) (a b c d : Nat) (ha : a ∈ l1) (hb : b ∈ l2) (hc : c ∈ l3) (hd : d ∈ l4)
    (h : ∀ a' ∈ l1, ∀ b' ∈ l2, ∀ c' ∈ l3, ∀ d' ∈ l4,
      f a' b' c' d' = f a b c d → g a' b' c' d' = g a b c d) :
    wr4 l1 l2 l3 l4 f g s (f a b c d) = g a b c d := by
  induction l1 generalizing s with
  | nil => cases ha
  | cons a0 t ih =>
    show wr4 t l2 l3 l4 f g (wr3 l2 l3 l4 (f a0) (g a0) s) (f a b c d) = g a b c d
    by_cases hat : a ∈ t
    · exact ih (wr3 l2 l3 l4 (f a0) (g a0) s) hat
        (fun a' ha' b' hb' c' hc' d' hd' hfb => h a' (by simp [ha']) b' hb' c' hc' d' hd' hfb)
    · have haa : a = a0 := by
        rcases List.mem_cons.mp ha with h1 | h1
        · exact h1
        · exact absurd h1 hat
      subst haa
      refine wr4_pres t l2 l3 l4 f g (wr3 l2 l3 l4 (f a) (g a) s) (f a b c d) (g a b c d) ?_
        (fun a' ha' b' hb' c' hc' d' hd' hfb => h a' (by simp [ha']) b' hb' c' hc' d' hd' hfb)
      exact wr3_mem l2 l3 l4 (f a) (g a) s b c d hb hc hd
        (fun b' hb' c' hc' d' hd' hfb => h a (by simp) b' hb' c' hc' d' hd' hfb)

theorem wr5_pres (l1 l2 l3 l4 l5 : List Nat) (f g : Nat → Nat → Nat → Nat → Nat → Nat)
    (s : Nat → Nat) (p v : Nat) (hs : s p = v)
    (h : ∀ a ∈ l1, ∀ b ∈ l2, ∀ c ∈ l3, ∀ d ∈ l4, ∀ e ∈ l5,
      f a b c d e = p → g a b c d e = v) :
    wr5 l1 l2 l3 l4 l5 f g s p = v := by
  induction l1 generalizing s with
  | nil => exact hs
  | cons a t ih =>
    show wr5 t l2 l3 l4 l5 f g (wr4 l2 l3 l4 l5 (f a) (g a) s) p = v
    refine ih (wr4 l2 l3 l4 l5 (f a) (g a) s) ?_
      (fun a' ha' b hb c hc d hd e he hfb => h a' (by simp [ha']) b hb c hc d hd e he hfb)
    exact wr4_pres l2 l3 l4 l5 (f a) (g a) s p v hs
      (fun b hb c hc d hd e he hfb => h a (by simp) b hb c hc d hd e he hfb)

theorem wr5_mem (l1 l2 l3 l4 l5 : List Nat) (f g : Nat → Nat → Nat → Nat → Nat → Nat)
    (s : Nat → Nat) (a b c d e : Nat)
    (ha : a ∈ l1) (hb : b ∈ l2) (hc : c ∈ l3) (hd : d ∈ l4) (he : e ∈ l5)
    (h : ∀ a' ∈ l1, ∀ b' ∈ l2, ∀ c' ∈ l3, ∀ d' ∈ l4, ∀ e' ∈ l5,
      f a' b' c' d' e' = f a b c d e → g a' b' c' d' e' = g a b c d e) :
    wr5 l1 l2 l3 l4 l5 f g s (f a b c d e) = g a b c d e := by
  induction l1 generalizing s with
  | nil => cases ha
  | cons a0 t ih =>
    show wr5 t l2 l3 l4 l5 f g (wr4 l2 l3 l4 l5 (f a0) (g a0) s) (f a b c d e) = g a b c d e
    by_cases hat : a ∈ t
    · exact ih (wr4 l2 l3 l4 l5 (f a0) (g a0) s) hat
        (fun a' ha' b' hb' c' hc' d' hd' e' he' hfb =>
          h a' (by simp [ha']) b' hb' c' hc' d' hd' e' he' hfb)
    · have haa : a = a0 := by
        rcases List.mem_cons.mp ha with h1 | h1
        · exact h1
        · exact absurd h1 hat
      subst haa
      refine wr5_pres t l2 l3 l4 l5 f g (wr4 l2 l3 l4 l5 (f a) (g a) s) (f a b c d e)
        (g a b c d e) ?_
        (fun a' ha' b' hb' c' hc' d' hd' e' he' hfb =>
          h a' (by simp [ha']) b' hb' c' hc' d' hd' e' he' hfb)
      exact wr4_mem l2 l3 l4 l5 (f a) (g a) s b c d e hb hc hd he
        (fun b' hb' c' hc' d' hd' e' he' hfb =>
          h a (by simp) b' hb' c' hc' d' hd' e' he' hfb)

/-- A fold of `Option`-valued steps that each succeed equals `some` of the
fold of their successful effects. -/
theorem fold_some {α : Type} (l : List α)
    (step : Option (Nat → Nat) → α → Option (Nat → Nat))
    (ps : (Nat → Nat) → α → (Nat → Nat))
    (h : ∀ a ∈ l, ∀ s, step (some s) a = some (ps s a)) :
    ∀ s, l.foldl step (some s) = some (l.foldl ps s) := by
  induction l with
  | nil => intro s; rfl
  | cons a t ih =>
    intro s
    show t.foldl step (step (some s) a) = some (t.foldl ps (ps s a))
    rw [h a (by simp) s]
    exact ih (fun b hb s => h b (by simp [hb]) s) (ps s a)

/-! ### The placement map and the table facts -/

/-- The composed placement map of `decode_mtile`: utile storage index `i`
goes to final cell `(final_row, uc)` of the 8x4 coarse grid. -/
def place (odd colm i : Nat) : Nat × Nat :=
  (findSec odd colm (findPrim odd i).1, (findPrim odd i).2)

/-- Inverse of `place`, tabulated: entry `[odd][colm][fr*4+uc]` is the unique
storage index `i` with `place odd colm i = (fr, uc)` (see `invPlace_place`
and `place_invPlace`). -/
def invPlaceTab : List (List (List Nat)) :=
  [[[0, 1, 2, 3, 17, 16, 19, 18, 8, 9, 10, 11, 25, 24, 27, 26,
     4, 5, 6, 7, 21, 20, 23, 22, 12, 13, 14, 15, 29, 28, 31, 30],
    [4, 5, 6, 7, 21, 20, 23, 22, 12, 13, 14, 15, 29, 28, 31, 30,
     0, 1, 2, 3, 17, 16, 19, 18, 8, 9, 10, 11, 25, 24, 27, 26],
    [8, 9, 10, 11, 25, 24, 27, 26, 0, 1, 2, 3, 17, 16, 19, 18,
     12, 13, 14, 15, 29, 28, 31, 30, 4, 5, 6, 7, 21, 20, 23, 22],
    [12, 13, 14, 15, 29, 28, 31, 30, 4, 5, 6, 7, 21, 20, 23, 22,
     8, 9, 10, 11, 25, 24, 27, 26, 0, 1, 2, 3, 17, 16, 19, 18]],
   [[6, 7, 4, 5, 23, 22, 21, 20, 14, 15, 12, 13, 31, 30, 29, 28,
     2, 3, 0, 1, 19, 18, 17, 16, 10, 11, 8, 9, 27, 26, 25, 24],
    [2, 3, 0, 1, 19, 18, 17, 16, 10, 11, 8, 9, 27, 26, 25, 24,
     6, 7, 4, 5, 23, 22, 21, 20, 14, 15, 12, 13, 31, 30, 29, 28],
    [14, 15, 12, 13, 31, 30, 29, 28, 6, 7, 4, 5, 23, 22, 21, 20,
     10, 11, 8, 9, 27, 26, 25, 24, 2, 3, 0, 1, 19, 18, 17, 16],
    [10, 11, 8, 9, 27, 26, 25, 24, 2, 3, 0, 1, 19, 18, 17, 16,
     14, 15, 12, 13, 31, 30, 29, 28, 6, 7, 4, 5, 23, 22, 21, 20]]]

/-- Inverse placement lookup: the storage index placed at cell `(fr, uc)`. -/
def invPlace (odd colm fr uc : Nat) : Nat :=
  ((invPlaceTab.getD odd []).getD colm []).getD (fr * 4 + uc) 32

theorem lookup_ok : ∀ odd, odd < 2 → ∀ colm, colm < 4 → ∀ i, i < 32 →
    (findPrim odd i).1 < 8 ∧ (findPrim odd i).2 < 4 ∧
      findSec odd colm (findPrim odd i).1 < 8 := by decide

theorem findPrim_correct : ∀ odd, odd < 2 → ∀ i, i < 32 →
    idx2 (primTab odd) (findPrim odd i).1 (findPrim odd i).2 = i := by decide

theorem findPrim_unique : ∀ odd, odd < 2 → ∀ i, i < 32 → ∀ ur, ur < 8 → ∀ uc, uc < 4 →
    (idx2 (primTab odd) ur uc = i ↔ (ur, uc) = findPrim odd i) := by decide

theorem findSec_correct : ∀ odd, odd < 2 → ∀ colm, colm < 4 → ∀ ur, ur < 8 →
    idx2 (secTab odd) colm (findSec odd colm ur) = ur := by decide

theorem findSec_unique : ∀ odd, odd < 2 → ∀ colm, colm < 4 → ∀ ur, ur < 8 → ∀ j, j < 8 →
    (idx2 (secTab odd) colm j = ur ↔ j = findSec odd colm ur) := by decide

theorem place_bounds : ∀ odd, odd < 2 → ∀ colm, colm < 4 → ∀ i, i < 32 →
    (place odd colm i).1 < 8 ∧ (place odd colm i).2 < 4 := by decide

theorem place_invPlace : ∀ odd, odd < 2 → ∀ colm, colm < 4 → ∀ i, i < 32 →
    invPlace odd colm (place odd colm i).1 (place odd colm i).2 = i := by decide

theorem invPlace_place : ∀ odd, odd < 2 → ∀ colm, colm < 4 → ∀ fr, fr < 8 → ∀ uc, uc < 4 →
    invPlace odd colm fr uc < 32 ∧ place odd colm (invPlace odd colm fr uc) = (fr, uc) := by
  decide

theorem utab_lt : ∀ r, r < 8 → ∀ c, c < 8 → idx2 utile_decoder r c < 64 := by decide

/-- The utile storage-order table is its own inverse as a permutation of
`[0, 64)` (reading position `k` as the pair `(k / 8, k % 8)`). -/
theorem utab_invol : ∀ k, k < 64 →
    idx2 utile_decoder (idx2 utile_decoder (k / 8) (k % 8) / 8)
      (idx2 utile_decoder (k / 8) (k % 8) % 8) = k := by decide

theorem place_inj (odd colm i i' : Nat) (ho : odd < 2) (hc : colm < 4)
    (hi : i < 32) (hi' : i' < 32) (h : place odd colm i = place odd colm i') : i = i' := by
  have h1 := place_invPlace odd ho colm hc i hi
  have h2 := place_invPlace odd ho colm hc i' hi'
  rw [← h1, ← h2, h]

/-- On in-range arguments, `decode_utile` is the table read the C loop body
performs: `out[r*8+c] = buf[utile_decoder[r][c]]`. -/
theorem decode_utile_spec (buf : Nat → Nat) (r c : Nat) (hr : r < 8) (hc : c < 8) :
    decode_utile buf (r * 8 + c) = buf (idx2 utile_decoder r c) := by
  unfold decode_utile
  refine wr2_mem (List.range 8) (List.range 8) _ _ _ r c
    (List.mem_range.mpr hr) (List.mem_range.mpr hc) ?_
  intro r' hr' c' hc' hf
  have hr2 := List.mem_range.mp hr'
  have hc2 := List.mem_range.mp hc'
  have h2 : r' = r ∧ c' = c := by omega
  rw [h2.1, h2.2]

/-- `decode_utile` at a flat position `k < 64`. -/
theorem decode_utile_spec' (buf : Nat → Nat) (k : Nat) (hk : k < 64) :
    decode_utile buf k = buf (idx2 utile_decoder (k / 8) (k % 8)) := by
  have h : k / 8 * 8 + k % 8 = k := by omega
  conv_lhs => rw [← h]
  exact decode_utile_spec buf (k / 8) (k % 8) (by omega) (by omega)

/-- The `assert`s in `decode_mtile` never fire: the decode always succeeds,
with the pure effect `mtilePure`. -/
theorem decode_mtile_some (buf : Nat → Nat) (row col base : Nat) (out : Nat → Nat) :
    decode_mtile buf row col base out = some (mtilePure buf row col base out) := by
  unfold decode_mtile mtilePure wr3
  apply fold_some
  intro i hi s
  have hi2 := List.mem_range.mp hi
  have ho : row % 2 < 2 := Nat.mod_lt _ (by norm_num)
  have hcm : col % 4 < 4 := Nat.mod_lt _ (by norm_num)
  obtain ⟨h1, h2, h3⟩ := lookup_ok (row % 2) ho (col % 4) hcm i hi2
  show (if (findPrim (row % 2) i).1 < 8 ∧ (findPrim (row % 2) i).2 < 4 then
      if findSec (row % 2) (col % 4) (findPrim (row % 2) i).1 < 8 ∧ (findPrim (row % 2) i).2 < 4 then
        some (wr2 (List.range 8) (List.range 8)
          (fun r c => base + (findSec (row % 2) (col % 4) (findPrim (row % 2) i).1 * 8 * WIDTH
            + (findPrim (row % 2) i).2 * 8) + r * WIDTH + c)
          (fun r c => decode_utile (fun k => buf (i * 64 + k)) (r * 8 + c)) s)
      else none
    else none) = some (wr2 (List.range 8) (List.range 8) _ _ s)
  rw [if_pos ⟨h1, h2⟩, if_pos ⟨h3, h2⟩]

theorem foldl_fun_congr {α β : Type} (l : List α) (f f' : β → α → β) (b : β)
    (h : ∀ s, ∀ a ∈ l, f s a = f' s a) : l.foldl f b = l.foldl f' b := by
  induction l generalizing b with
  | nil => rfl
  | cons a t ih =>
    rw [List.foldl_cons, List.foldl_cons, h b a (by simp)]
    exact ih _ (fun s a' ha' => h s a' (by simp [ha']))

/-- Cursor arithmetic for the inner (column) loop of `main`: starting from
input cursor `cur`, the cell at column `col` reads the slice at
`cur + col*2048`, and the loop advances the cursor by `2048` per cell. -/
theorem detile_cols (buf : Nat → Nat) (row : Nat) :
    ∀ (n cur : Nat) (acc : Option (Nat → Nat)),
    (List.range n).foldl (fun st col =>
      (st.1 + 2048,
       st.2.bind (decode_mtile (fun k => buf (st.1 + k)) row col (row * 64 * WIDTH + col * 32))))
      (cur, acc)
    = (cur + n * 2048,
       (List.range n).foldl (fun a col =>
         a.bind (decode_mtile (fun k => buf (cur + col * 2048 + k)) row col
           (row * 64 * WIDTH + col * 32))) acc) := by
  intro n
  induction n with
  | zero => intro cur acc; simp
  | succ n ih =>
    intro cur acc
    rw [List.range_succ, List.foldl_append, List.foldl_append, ih]
    simp only [List.foldl_cons, List.foldl_nil]
    simp [Nat.succ_mul, Nat.add_assoc]

/-- Cursor arithmetic for the whole frame loop of `main`: the cell at grid
coordinate `(row, col)` reads the input slice starting at word
`(row*40 + col) * 2048` — 2048 words advanced per cell, row-major order. -/
theorem detile_rows (buf : Nat → Nat) :
    ∀ (m cur : Nat) (acc : Option (Nat → Nat)),
    (List.range m).foldl (fun st row =>
      (List.range 40).foldl (fun st col =>
        (st.1 + 2048,
         st.2.bind (decode_mtile (fun k => buf (st.1 + k)) row col
           (row * 64 * WIDTH + col * 32))))
        st) (cur, acc)
    = (cur + m * 81920,
       (List.range m).foldl (fun a row =>
         (List.range 40).foldl (fun a col =>
           a.bind (decode_mtile (fun k => buf (cur + (row * 40 + col) * 2048 + k)) row col
             (row * 64 * WIDTH + col * 32))) a) acc) := by
  intro m
  induction m with
  | zero => intro cur acc; simp
  | succ m ih =>
    intro cur acc
    rw [show List.range (m + 1) = List.range m ++ [m] from List.range_succ m,
      List.foldl_append, List.foldl_append, ih]
    simp only [List.foldl_cons, List.foldl_nil]
    rw [detile_cols buf m 40 (cur + m * 81920)]
    refine Prod.ext (by omega) ?_
    dsimp only
    refine foldl_fun_congr _ _ _ _ ?_
    intro s col hcol
    have harith : ∀ k, cur + m * 81920 + col * 2048 + k = cur + (m * 40 + col) * 2048 + k := by
      intro k; ring_nf
    rw [show (fun k => buf (cur + m * 81920 + col * 2048 + k))
      = (fun k => buf (cur + (m * 40 + col) * 2048 + k)) from funext (fun k => by rw [harith k])]

/-- The frame loop with the input cursor resolved: the cell at `(row, col)`
decodes the input slice starting at word `(row*40 + col)*2048` into the
destination with top-left word offset `row*64*WIDTH + col*32`. -/
theorem detile_eq_linear (buf : Nat → Nat) :
    detile buf = (List.range 12).foldl (fun a row =>
      (List.range 40).foldl (fun a col =>
        a.bind (decode_mtile (fun k => buf ((row * 40 + col) * 2048 + k)) row col
          (row * 64 * WIDTH + col * 32))) a) (some (fun _ => 0)) := by
  unfold detile
  rw [show HEIGHT / 64 = 12 by norm_num [HEIGHT], show WIDTH / 32 = 40 by norm_num [WIDTH]]
  rw [detile_rows buf 12 0 (some (fun _ => 0))]
  dsimp only
  refine foldl_fun_congr _ _ _ _ ?_
  intro s row hrow
  refine foldl_fun_congr _ _ _ _ ?_
  intro s' col hcol
  rw [show (fun k => buf (0 + (row * 40 + col) * 2048 + k))
    = (fun k => buf ((row * 40 + col) * 2048 + k)) from funext (fun k => by rw [Nat.zero_add])]

/-- The whole-frame decode always succeeds, with pure effect `detilePure`. -/
theorem detile_some (buf : Nat → Nat) : detile buf = some (detilePure buf) := by
  rw [detile_eq_linear]
  refine Eq.trans (fold_some (List.range 12) _
    (fun s row => (List.range 40).foldl (fun s col =>
      mtilePure (fun k => buf ((row * 40 + col) * 2048 + k)) row col
        (row * 64 * WIDTH + col * 32) s) s) ?_ (fun _ => 0)) ?_
  · intro row hrow s
    refine fold_some (List.range 40) _ _ ?_ s
    intro col hcol s'
    exact decode_mtile_some (fun k => buf ((row * 40 + col) * 2048 + k)) row col
      (row * 64 * WIDTH + col * 32) s'
  · rfl

/-! ### The frame decode as an address permutation -/

/-- The input word index that the decode reads into output frame position
`p` (derived from the loop structure; see `detilePure_spec`). -/
def readIdx (p : Nat) : Nat :=
  (p / 1280 / 64 * 40 + p % 1280 / 32) * 2048
  + invPlace (p / 1280 / 64 % 2) (p % 1280 / 32 % 4) (p / 1280 % 64 / 8) (p % 1280 % 32 / 8) * 64
  + idx2 utile_decoder (p / 1280 % 8) (p % 1280 % 8)

/-- Inverse of the utile permutation.  The utile table is an involution
(`utab_invol`), so the inverse lookup is the table itself. -/
def invUtab (w : Nat) : Nat := idx2 utile_decoder (w / 8) (w % 8)

/-- The output frame position where input word `q` lands, built from the
placement tables and the inverse utile permutation. -/
def encPos (q : Nat) : Nat :=
  (q / 2048 / 40 * 64 + (place (q / 2048 / 40 % 2) (q / 2048 % 40 % 4) (q % 2048 / 64)).1 * 8
    + invUtab (q % 64) / 8) * 1280
  + q / 2048 % 40 * 32 + (place (q / 2048 / 40 % 2) (q / 2048 % 40 % 4) (q % 2048 / 64)).2 * 8
  + invUtab (q % 64) % 8

/-- The inverse transform built from the tables' inverse permutations: each
word of the re-tiled buffer is read back from its encoded frame position. -/
def retile (out : Nat → Nat) : Nat → Nat := fun q => out (encPos q)

theorem invUtab_utab (r c : Nat) (hr : r < 8) (hc : c < 8) :
    invUtab (idx2 utile_decoder r c) = r * 8 + c := by
  have h := utab_invol (r * 8 + c) (by omega)
  have h1 : (r * 8 + c) / 8 = r := by omega
  have h2 : (r * 8 + c) % 8 = c := by omega
  rw [h1, h2] at h
  exact h
theorem detilePure_spec (buf : Nat → Nat) (p : Nat) (hp : p < 983040) :
    detilePure buf p = buf (readIdx p) := by
  have hW : WIDTH = 1280 := rfl
  obtain ⟨hi_lt, hpl⟩ := invPlace_place (p / 1280 / 64 % 2) (by omega) (p % 1280 / 32 % 4)
    (by omega) (p / 1280 % 64 / 8) (by omega) (p % 1280 % 32 / 8) (by omega)
  have hplace1 : findSec (p / 1280 / 64 % 2) (p % 1280 / 32 % 4)
      (findPrim (p / 1280 / 64 % 2)
        (invPlace (p / 1280 / 64 % 2) (p % 1280 / 32 % 4) (p / 1280 % 64 / 8) (p % 1280 % 32 / 8))).1
      = p / 1280 % 64 / 8 := congrArg Prod.fst hpl
  have hplace2 : (findPrim (p / 1280 / 64 % 2)
      (invPlace (p / 1280 / 64 % 2) (p % 1280 / 32 % 4) (p / 1280 % 64 / 8) (p % 1280 % 32 / 8))).2
      = p % 1280 % 32 / 8 := congrArg Prod.snd hpl
  have haddr : p / 1280 / 64 * 64 * WIDTH + p % 1280 / 32 * 32
      + (findSec (p / 1280 / 64 % 2) (p % 1280 / 32 % 4)
          (findPrim (p / 1280 / 64 % 2)
            (invPlace (p / 1280 / 64 % 2) (p % 1280 / 32 % 4) (p / 1280 % 64 / 8)
              (p % 1280 % 32 / 8))).1 * 8 * WIDTH
        + (findPrim (p / 1280 / 64 % 2)
            (invPlace (p / 1280 / 64 % 2) (p % 1280 / 32 % 4) (p / 1280 % 64 / 8)
              (p % 1280 % 32 / 8))).2 * 8)
      + p / 1280 % 8 * WIDTH + p % 1280 % 8 = p := by
    rw [hW, hplace1, hplace2]
    omega
  conv_lhs => rw [← haddr]
  unfold detilePure
  rw [wr5_mem (List.range 12) (List.range 40) (List.range 32) (List.range 8) (List.range 8)
    _ _ _ (p / 1280 / 64) (p % 1280 / 32)
    (invPlace (p / 1280 / 64 % 2) (p % 1280 / 32 % 4) (p / 1280 % 64 / 8) (p % 1280 % 32 / 8))
    (p / 1280 % 8) (p % 1280 % 8)
    (List.mem_range.mpr (by omega)) (List.mem_range.mpr (by omega))
    (List.mem_range.mpr hi_lt) (List.mem_range.mpr (by omega)) (List.mem_range.mpr (by omega))
    ?_]
  · rw [decode_utile_spec _ _ _ (by omega) (by omega)]
    unfold readIdx
    exact congrArg buf (by omega)
  · intro a ha b hb c hc d hd e he hf
    have ha2 := List.mem_range.mp ha
    have hb2 := List.mem_range.mp hb
    have hc2 := List.mem_range.mp hc
    have hd2 := List.mem_range.mp hd
    have he2 := List.mem_range.mp he
    obtain ⟨hf1, hf2, hf3⟩ := lookup_ok (a % 2) (by omega) (b % 4) (by omega) c hc2
    rw [hW] at hf
    have hcomp : a = p / 1280 / 64 ∧ b = p % 1280 / 32 ∧ d = p / 1280 % 8 ∧ e = p % 1280 % 8
        ∧ findSec (a % 2) (b % 4) (findPrim (a % 2) c).1 = p / 1280 % 64 / 8
        ∧ (findPrim (a % 2) c).2 = p % 1280 % 32 / 8 := by
      omega
    obtain ⟨hA, hB, hD, hE, hFr, hUc⟩ := hcomp
    subst hA; subst hB; subst hD; subst hE
    have hplc : place (p / 1280 / 64 % 2) (p % 1280 / 32 % 4) c
        = place (p / 1280 / 64 % 2) (p % 1280 / 32 % 4)
            (invPlace (p / 1280 / 64 % 2) (p % 1280 / 32 % 4) (p / 1280 % 64 / 8)
              (p % 1280 % 32 / 8)) := by
      rw [hpl]
      unfold place
      rw [hFr, hUc]
    have hC : c = invPlace (p / 1280 / 64 % 2) (p % 1280 / 32 % 4) (p / 1280 % 64 / 8)
        (p % 1280 % 32 / 8) :=
      place_inj _ _ _ _ (by omega) (by omega) hc2 hi_lt hplc
    subst hC
    rfl

theorem comp64 (row fr u : Nat) (hfr : fr < 8) (hu : u < 8) :
    (row * 64 + fr * 8 + u) / 64 = row ∧ (row * 64 + fr * 8 + u) % 64 / 8 = fr
      ∧ (row * 64 + fr * 8 + u) % 8 = u := by
  omega

theorem comp32 (col uc u : Nat) (huc : uc < 4) (hu : u < 8) :
    (col * 32 + uc * 8 + u) / 32 = col ∧ (col * 32 + uc * 8 + u) % 32 / 8 = uc
      ∧ (col * 32 + uc * 8 + u) % 8 = u := by
  omega

theorem readIdx_lt (p : Nat) (hp : p < 983040) : readIdx p < 983040 := by
  have h1 := (invPlace_place (p / 1280 / 64 % 2) (by omega) (p % 1280 / 32 % 4) (by omega)
    (p / 1280 % 64 / 8) (by omega) (p % 1280 % 32 / 8) (by omega)).1
  have h2 := utab_lt (p / 1280 % 8) (by omega) (p % 1280 % 8) (by omega)
  unfold readIdx
  omega

theorem encPos_readIdx (p : Nat) (_hp : p < 983040) : encPos (readIdx p) = p := by
  obtain ⟨hi_lt, hpl⟩ := invPlace_place (p / 1280 / 64 % 2) (by omega) (p % 1280 / 32 % 4)
    (by omega) (p / 1280 % 64 / 8) (by omega) (p % 1280 % 32 / 8) (by omega)
  have hu := utab_lt (p / 1280 % 8) (by omega) (p % 1280 % 8) (by omega)
  have hru : readIdx p = (p / 1280 / 64 * 40 + p % 1280 / 32) * 2048
      + invPlace (p / 1280 / 64 % 2) (p % 1280 / 32 % 4) (p / 1280 % 64 / 8)
          (p % 1280 % 32 / 8) * 64
      + idx2 utile_decoder (p / 1280 % 8) (p % 1280 % 8) := rfl
  have h1 : readIdx p / 2048 / 40 = p / 1280 / 64 := by rw [hru]; omega
  have h2 : readIdx p / 2048 % 40 = p % 1280 / 32 := by rw [hru]; omega
  have h3 : readIdx p % 2048 / 64 = invPlace (p / 1280 / 64 % 2) (p % 1280 / 32 % 4)
      (p / 1280 % 64 / 8) (p % 1280 % 32 / 8) := by rw [hru]; omega
  have h4 : readIdx p % 64 = idx2 utile_decoder (p / 1280 % 8) (p % 1280 % 8) := by
    rw [hru]; omega
  unfold encPos
  rw [h1, h2, h3, h4, hpl,
    invUtab_utab (p / 1280 % 8) (p % 1280 % 8) (by omega) (by omega)]
  dsimp only
  omega

theorem readIdx_encPos (q : Nat) (hq : q < 983040) :
    encPos q < 983040 ∧ readIdx (encPos q) = q := by
  obtain ⟨hfr, huc⟩ := place_bounds (q / 2048 / 40 % 2) (by omega) (q / 2048 % 40 % 4)
    (by omega) (q % 2048 / 64) (by omega)
  have hk : invUtab (q % 64) < 64 := utab_lt (q % 64 / 8) (by omega) (q % 64 % 8) (by omega)
  have hk1 : invUtab (q % 64) / 8 < 8 := by omega
  have hk2 : invUtab (q % 64) % 8 < 8 := by omega
  have hep : encPos q = (q / 2048 / 40 * 64
      + (place (q / 2048 / 40 % 2) (q / 2048 % 40 % 4) (q % 2048 / 64)).1 * 8
      + invUtab (q % 64) / 8) * 1280
      + q / 2048 % 40 * 32
      + (place (q / 2048 / 40 % 2) (q / 2048 % 40 % 4) (q % 2048 / 64)).2 * 8
      + invUtab (q % 64) % 8 := rfl
  have hlt : encPos q < 983040 := by rw [hep]; omega
  refine ⟨hlt, ?_⟩
  have hq1 : encPos q / 1280 = q / 2048 / 40 * 64
      + (place (q / 2048 / 40 % 2) (q / 2048 % 40 % 4) (q % 2048 / 64)).1 * 8
      + invUtab (q % 64) / 8 := by rw [hep]; omega
  have hq2 : encPos q % 1280 = q / 2048 % 40 * 32
      + (place (q / 2048 / 40 % 2) (q / 2048 % 40 % 4) (q % 2048 / 64)).2 * 8
      + invUtab (q % 64) % 8 := by rw [hep]; omega
  obtain ⟨hc1, hc2, hc3⟩ := comp64 (q / 2048 / 40)
    (place (q / 2048 / 40 % 2) (q / 2048 % 40 % 4) (q % 2048 / 64)).1
    (invUtab (q % 64) / 8) hfr hk1
  obtain ⟨hd1, hd2, hd3⟩ := comp32 (q / 2048 % 40)
    (place (q / 2048 / 40 % 2) (q / 2048 % 40 % 4) (q % 2048 / 64)).2
    (invUtab (q % 64) % 8) huc hk2
  have h1 : encPos q / 1280 / 64 = q / 2048 / 40 := by rw [hq1]; exact hc1
  have h2 : encPos q % 1280 / 32 = q / 2048 % 40 := by rw [hq2]; exact hd1
  have h3 : encPos q / 1280 % 64 / 8
      = (place (q / 2048 / 40 % 2) (q / 2048 % 40 % 4) (q % 2048 / 64)).1 := by
    rw [hq1]; exact hc2
  have h4 : encPos q % 1280 % 32 / 8
      = (place (q / 2048 / 40 % 2) (q / 2048 % 40 % 4) (q % 2048 / 64)).2 := by
    rw [hq2]; exact hd2
  have h5 : encPos q / 1280 % 8 = invUtab (q % 64) / 8 := by rw [hq1]; exact hc3
  have h6 : encPos q % 1280 % 8 = invUtab (q % 64) % 8 := by rw [hq2]; exact hd3
  have hinv : invPlace (q / 2048 / 40 % 2) (q / 2048 % 40 % 4)
      (place (q / 2048 / 40 % 2) (q / 2048 % 40 % 4) (q % 2048 / 64)).1
      (place (q / 2048 / 40 % 2) (q / 2048 % 40 % 4) (q % 2048 / 64)).2 = q % 2048 / 64 :=
    place_invPlace (q / 2048 / 40 % 2) (by omega) (q / 2048 % 40 % 4) (by omega)
      (q % 2048 / 64) (by omega)
  have hut : idx2 utile_decoder (invUtab (q % 64) / 8) (invUtab (q % 64) % 8) = q % 64 :=
    utab_invol (q % 64) (by omega)
  unfold readIdx
  rw [h1, h2, h3, h4, h5, h6, hinv, hut]
  omega

/-- The write equation of one macro-tile decode: the word of utile `i`'s
decoded 8x8 block at raster `(r, c)` lands at `base` plus
`final_row*8*WIDTH + uc*8 + r*WIDTH + c`. -/
theorem mtilePure_spec (buf out : Nat → Nat) (row col base i r c : Nat)
    (hi : i < 32) (hr : r < 8) (hc : c < 8) :
    mtilePure buf row col base out
      (base + (findSec (row % 2) (col % 4) (findPrim (row % 2) i).1 * 8 * WIDTH
        + (findPrim (row % 2) i).2 * 8) + r * WIDTH + c)
      = buf (i * 64 + idx2 utile_decoder r c) := by
  have hW : WIDTH = 1280 := rfl
  have ho : row % 2 < 2 := Nat.mod_lt _ (by norm_num)
  have hcm : col % 4 < 4 := Nat.mod_lt _ (by norm_num)
  unfold mtilePure
  rw [wr3_mem (List.range 32) (List.range 8) (List.range 8) _ _ _ i r c
    (List.mem_range.mpr hi) (List.mem_range.mpr hr) (List.mem_range.mpr hc) ?_]
  · exact decode_utile_spec _ r c hr hc
  · intro i' hi' r' hr' c' hc' hf
    have hi2 := List.mem_range.mp hi'
    have hr2 := List.mem_range.mp hr'
    have hc2 := List.mem_range.mp hc'
    obtain ⟨ha1, ha2, ha3⟩ := lookup_ok (row % 2) ho (col % 4) hcm i' hi2
    obtain ⟨hb1, hb2, hb3⟩ := lookup_ok (row % 2) ho (col % 4) hcm i hi
    rw [hW] at hf
    have hcomp : findSec (row % 2) (col % 4) (findPrim (row % 2) i').1
          = findSec (row % 2) (col % 4) (findPrim (row % 2) i).1
        ∧ (findPrim (row % 2) i').2 = (findPrim (row % 2) i).2
        ∧ r' = r ∧ c' = c := by omega
    obtain ⟨hFr, hUc, hR, hC⟩ := hcomp
    subst hR; subst hC
    have hplc : place (row % 2) (col % 4) i' = place (row % 2) (col % 4) i := by
      unfold place
      rw [hFr, hUc]
    have hI : i' = i := place_inj _ _ _ _ ho hcm hi2 hi hplc
    subst hI
    rfl

/-- One macro-tile decode writes only inside its own 64x32 destination
region: any word outside `base + [0,64)*WIDTH + [0,32)` is untouched. -/
theorem mtilePure_outside (buf out : Nat → Nat) (row col base p : Nat)
    (hp : ∀ dr dc, dr < 64 → dc < 32 → p ≠ base + dr * WIDTH + dc) :
    mtilePure buf row col base out p = out p := by
  unfold mtilePure
  refine wr3_pres _ _ _ _ _ _ _ _ rfl ?_
  intro i hi r hr c hc hf
  exfalso
  have hi2 := List.mem_range.mp hi
  have hr2 := List.mem_range.mp hr
  have hc2 := List.mem_range.mp hc
  obtain ⟨h1, h2, h3⟩ := lookup_ok (row % 2) (Nat.mod_lt _ (by norm_num))
    (col % 4) (Nat.mod_lt _ (by norm_num)) i hi2
  refine hp (findSec (row % 2) (col % 4) (findPrim (row % 2) i).1 * 8 + r)
    ((findPrim (row % 2) i).2 * 8 + c) (by omega) (by omega) ?_
  rw [← hf]
  ring

/-- A macro-tile decode reads only the first 2048 words of its input slice. -/
theorem decode_mtile_reads (buf buf' : Nat → Nat) (row col base : Nat) (out : Nat → Nat)
    (h : ∀ k, k < 2048 → buf k = buf' k) :
    decode_mtile buf row col base out = decode_mtile buf' row col base out := by
  rw [decode_mtile_some, decode_mtile_some]
  refine congrArg some ?_
  unfold mtilePure
  apply wr3_congr
  intro i hi r hr c hc
  have hi2 := List.mem_range.mp hi
  have hr2 := List.mem_range.mp hr
  have hc2 := List.mem_range.mp hc
  rw [decode_utile_spec _ r c hr2 hc2, decode_utile_spec _ r c hr2 hc2]
  have hu := utab_lt r hr2 c hc2
  exact h _ (by omega)

/-! ### The claims -/

/-- C1: for every macro-tile decode with parity `row % 2` selecting the
primary table `P` and secondary table `S`, and every storage index `i < 32`:
the coarse cell `(ur, uc)` found by the first search is the unique pair with
`P[ur][uc] = i`; the final row is the unique `j` with `S[col % 4][j] = ur`;
and the decoded 8x8 block of utile `i` is written at word offset
`final_row*8*WIDTH + uc*8` from the macro-tile's top-left frame offset
`base`, each of its 8 rows offset by `WIDTH` words from the previous. -/
theorem c1_utile_placement (buf out : Nat → Nat) (row col base i : Nat) (hi : i < 32) :
    ((findPrim (row % 2) i).1 < 8 ∧ (findPrim (row % 2) i).2 < 4
      ∧ (∀ ur, ur < 8 → ∀ uc, uc < 4 →
          (idx2 (primTab (row % 2)) ur uc = i ↔ (ur, uc) = findPrim (row % 2) i)))
    ∧ (findSec (row % 2) (col % 4) (findPrim (row % 2) i).1 < 8
      ∧ (∀ j, j < 8 →
          (idx2 (secTab (row % 2)) (col % 4) j = (findPrim (row % 2) i).1
            ↔ j = findSec (row % 2) (col % 4) (findPrim (row % 2) i).1)))
    ∧ (∀ r c, r < 8 → c < 8 →
        mtilePure buf row col base out
          (base + (findSec (row % 2) (col % 4) (findPrim (row % 2) i).1 * 8 * WIDTH
            + (findPrim (row % 2) i).2 * 8) + r * WIDTH + c)
        = decode_utile (fun k => buf (i * 64 + k)) (r * 8 + c))
    ∧ decode_mtile buf row col base out = some (mtilePure buf row col base out) := by
  have ho : row % 2 < 2 := Nat.mod_lt _ (by norm_num)
  have hcm : col % 4 < 4 := Nat.mod_lt _ (by norm_num)
  obtain ⟨h1, h2, h3⟩ := lookup_ok (row % 2) ho (col % 4) hcm i hi
  refine ⟨⟨h1, h2, fun ur hur uc huc => findPrim_unique (row % 2) ho i hi ur hur uc huc⟩,
    ⟨h3, fun j hj => findSec_unique (row % 2) ho (col % 4) hcm (findPrim (row % 2) i).1 h1 j hj⟩,
    ?_, decode_mtile_some buf row col base out⟩
  intro r c hr hc
  rw [mtilePure_spec buf out row col base i r c hi hr hc,
    decode_utile_spec (fun k => buf (i * 64 + k)) r c hr hc]

theorem c1_utile_placement_witness :
    mtilePure (fun k => k) 1 2 0 (fun _ => 0)
      (0 + (findSec (1 % 2) (2 % 4) (findPrim (1 % 2) 7).1 * 8 * WIDTH
        + (findPrim (1 % 2) 7).2 * 8) + 3 * WIDTH + 4)
    = decode_utile (fun k => 7 * 64 + k) (3 * 8 + 4) :=
  (c1_utile_placement (fun k => k) (fun _ => 0) 1 2 0 7 (by decide)).2.2.1 3 4
    (by decide) (by decide)

/-- C2: the whole-frame detiling transform is a bijection on word positions:
the frame loop succeeds with pure effect `detilePure`; every output position
`p < 1280*768` holds input word `readIdx p`; the inverse transform `retile`
built from the tables' inverse permutations recovers the input exactly for
arbitrary word content; and on the sequential-marker input (word = its own
index) every input index appears exactly once and every output position is
filled exactly once. -/
theorem c2_frame_bijection (buf : Nat → Nat) :
    detile buf = some (detilePure buf)
    ∧ (∀ p, p < 983040 → detilePure buf p = buf (readIdx p))
    ∧ (∀ q, q < 983040 → retile (detilePure buf) q = buf q)
    ∧ (∀ p, p < 983040 → readIdx p < 983040)
    ∧ (∀ p p', p < 983040 → p' < 983040 → readIdx p = readIdx p' → p = p')
    ∧ (∀ q, q < 983040 → ∃ p, p < 983040 ∧ detilePure (fun w => w) p = q) := by
  refine ⟨detile_some buf, detilePure_spec buf, ?_, readIdx_lt, ?_, ?_⟩
  · intro q hq
    obtain ⟨hlt, hread⟩ := readIdx_encPos q hq
    show detilePure buf (encPos q) = buf q
    rw [detilePure_spec buf (encPos q) hlt, hread]
  · intro p p' hp hp' h
    have h1 := encPos_readIdx p hp
    have h2 := encPos_readIdx p' hp'
    rw [← h1, ← h2, h]
  · intro q hq
    obtain ⟨hlt, hread⟩ := readIdx_encPos q hq
    exact ⟨encPos q, hlt, by rw [detilePure_spec _ _ hlt, hread]⟩

theorem c2_frame_bijection_witness :
    retile (detilePure (fun w => w)) 12345 = 12345 :=
  (c2_frame_bijection (fun w => w)).2.2.1 12345 (by decide)

/-- C3: for every 64-word input block and raster position `(row, col)` with
`row, col < 8`, `decode_utile` puts `input[utile_decoder[row][col]]` at
output position `row*8 + col`. -/
theorem c3_utile_raster (buf : Nat → Nat) (row col : Nat) (hr : row < 8) (hc : col < 8) :
    decode_utile buf (row * 8 + col) = buf (idx2 utile_decoder row col) :=
  decode_utile_spec buf row col hr hc

theorem c3_utile_raster_witness :
    decode_utile (fun k => 100 + k) (3 * 8 + 5) = 100 + idx2 utile_decoder 3 5 :=
  c3_utile_raster (fun k => 100 + k) 3 5 (by decide) (by decide)

/-- C4: the constant tables are bijections over their stated domains: each
primary table's 32 entries (both parity variants) are a permutation of 0..31,
each row of each secondary table (both variants) is a permutation of 0..7,
and the utile table's 64 entries are a permutation of 0..63. -/
theorem c4_table_permutations :
    (∀ r, r < 8 → ∀ c, c < 4 → idx2 mtile_decoder_0x r c < 32)
    ∧ (∀ v, v < 32 → ∃ r, r < 8 ∧ ∃ c, c < 4 ∧ idx2 mtile_decoder_0x r c = v)
    ∧ (∀ r, r < 8 → ∀ c, c < 4 → ∀ r', r' < 8 → ∀ c', c' < 4 →
        (idx2 mtile_decoder_0x r c = idx2 mtile_decoder_0x r' c' ↔ r = r' ∧ c = c'))
    ∧ (∀ r, r < 8 → ∀ c, c < 4 → idx2 mtile_decoder_1x r c < 32)
    ∧ (∀ v, v < 32 → ∃ r, r < 8 ∧ ∃ c, c < 4 ∧ idx2 mtile_decoder_1x r c = v)
    ∧ (∀ r, r < 8 → ∀ c, c < 4 → ∀ r', r' < 8 → ∀ c', c' < 4 →
        (idx2 mtile_decoder_1x r c = idx2 mtile_decoder_1x r' c' ↔ r = r' ∧ c = c'))
    ∧ (∀ t, t < 4 → ∀ j, j < 8 → idx2 mtile_decoder_0 t j < 8)
    ∧ (∀ t, t < 4 → ∀ v, v < 8 → ∃ j, j < 8 ∧ idx2 mtile_decoder_0 t j = v)
    ∧ (∀ t, t < 4 → ∀ j, j < 8 → ∀ j', j' < 8 →
        (idx2 mtile_decoder_0 t j = idx2 mtile_decoder_0 t j' ↔ j = j'))
    ∧ (∀ t, t < 4 → ∀ j, j < 8 → idx2 mtile_decoder_1 t j < 8)
    ∧ (∀ t, t < 4 → ∀ v, v < 8 → ∃ j, j < 8 ∧ idx2 mtile_decoder_1 t j = v)
    ∧ (∀ t, t < 4 → ∀ j, j < 8 → ∀ j', j' < 8 →
        (idx2 mtile_decoder_1 t j = idx2 mtile_decoder_1 t j' ↔ j = j'))
    ∧ (∀ r, r < 8 → ∀ c, c < 8 → idx2 utile_decoder r c < 64)
    ∧ (∀ v, v < 64 → ∃ r, r < 8 ∧ ∃ c, c < 8 ∧ idx2 utile_decoder r c = v)
    ∧ (∀ r, r < 8 → ∀ c, c < 8 → ∀ r', r' < 8 → ∀ c', c' < 8 →
        (idx2 utile_decoder r c = idx2 utile_decoder r' c' ↔ r = r' ∧ c = c')) :=
  ⟨by decide, by decide, by decide, by decide, by decide, by decide, by decide, by decide,
   by decide, by decide, by decide, by decide, by decide, by decide, by decide⟩

theorem c4_table_permutations_witness :
    ∃ r, r < 8 ∧ ∃ c, c < 4 ∧ idx2 mtile_decoder_0x r c = 19 :=
  c4_table_permutations.2.1 19 (by decide)

/-- C5: the frame assembler visits the macro-tile grid in row-major order
with `HEIGHT/64 = 12` rows and `WIDTH/32 = 40` columns of macro-tiles; the
cell at `(row, col)` writes from destination top-left word offset
`row*64*WIDTH + col*32` and consumes the consecutive 2048-word input slice
starting at word `(row*40 + col)*2048` — the cursor advances by exactly 2048
words per cell. -/
theorem c5_frame_traversal (buf : Nat → Nat) :
    HEIGHT / 64 = 12 ∧ WIDTH / 32 = 40
    ∧ detile buf = (List.range 12).foldl (fun a row =>
        (List.range 40).foldl (fun a col =>
          a.bind (decode_mtile (fun k => buf ((row * 40 + col) * 2048 + k)) row col
            (row * 64 * WIDTH + col * 32))) a) (some (fun _ => 0)) :=
  ⟨by norm_num [HEIGHT], by norm_num [WIDTH], detile_eq_linear buf⟩

/-- C6: for every storage index `i < 32`, every row parity and every column
class, both placement lookups succeed — the searched entry exists, so the
no-match (assert-failure) branch of `decode_mtile` is unreachable and the
decode, once started, completes without error. -/
theorem c6_lookups_succeed (buf out : Nat → Nat) (row col base : Nat) :
    (∀ i, i < 32 →
      (findPrim (row % 2) i).1 < 8 ∧ (findPrim (row % 2) i).2 < 4
      ∧ idx2 (primTab (row % 2)) (findPrim (row % 2) i).1 (findPrim (row % 2) i).2 = i
      ∧ findSec (row % 2) (col % 4) (findPrim (row % 2) i).1 < 8
      ∧ idx2 (secTab (row % 2)) (col % 4) (findSec (row % 2) (col % 4) (findPrim (row % 2) i).1)
          = (findPrim (row % 2) i).1)
    ∧ decode_mtile buf row col base out = some (mtilePure buf row col base out) := by
  have ho : row % 2 < 2 := Nat.mod_lt _ (by norm_num)
  have hcm : col % 4 < 4 := Nat.mod_lt _ (by norm_num)
  refine ⟨?_, decode_mtile_some buf row col base out⟩
  intro i hi
  obtain ⟨h1, h2, h3⟩ := lookup_ok (row % 2) ho (col % 4) hcm i hi
  exact ⟨h1, h2, findPrim_correct (row % 2) ho i hi, h3,
    findSec_correct (row % 2) ho (col % 4) hcm (findPrim (row % 2) i).1 h1⟩

theorem c6_lookups_succeed_witness :
    (findPrim (3 % 2) 21).1 < 8 ∧ (findPrim (3 % 2) 21).2 < 4
    ∧ idx2 (primTab (3 % 2)) (findPrim (3 % 2) 21).1 (findPrim (3 % 2) 21).2 = 21
    ∧ findSec (3 % 2) (5 % 4) (findPrim (3 % 2) 21).1 < 8
    ∧ idx2 (secTab (3 % 2)) (5 % 4) (findSec (3 % 2) (5 % 4) (findPrim (3 % 2) 21).1)
        = (findPrim (3 % 2) 21).1 :=
  (c6_lookups_succeed (fun k => k) (fun _ => 0) 3 5 0).1 21 (by decide)

/-- C7 (counterexample): on an input of `WIDTH*HEIGHT*4 - 1` bytes the
program does not return a recoverable error value to its caller — the
`assert` on line 162 of `src/main.c` fails and the process aborts.  The
failure is an abort, not an `err` result like the ones the CLI layer
returns (`EINVAL`, `ENOMEM`, `errno`). -/
theorem c7_size_assert_counterexample :
    main_c 3 (WIDTH * HEIGHT * 4 - 1) (fun k => k) = MainResult.abort
    ∧ ∀ code, main_c 3 (WIDTH * HEIGHT * 4 - 1) (fun k => k) ≠ MainResult.err code := by
  have habort : main_c 3 (WIDTH * HEIGHT * 4 - 1) (fun k => k) = MainResult.abort := by
    unfold main_c
    rw [if_neg (by decide), if_neg (by decide)]
  exact ⟨habort, fun code h => MainResult.noConfusion (habort.symm.trans h)⟩

/-- C7 (amended): if the input length differs from `WIDTH*HEIGHT*4` bytes,
the run aborts via the assertion before any decoding work and produces no
output; the size check is the first thing after reading the file. -/
theorem c7_size_mismatch_aborts (size : Nat) (buf : Nat → Nat)
    (hsize : size ≠ WIDTH * HEIGHT * 4) :
    main_c 3 size buf = MainResult.abort := by
  unfold main_c
  rw [if_neg (by decide), if_neg hsize]

theorem c7_size_mismatch_aborts_witness :
    main_c 3 3932159 (fun k => k) = MainResult.abort :=
  c7_size_mismatch_aborts 3932159 (fun k => k) (by decide)

/-- C8: a macro-tile decode reads only the first 2048 words of its input
slice (so at frame level, the cell with linear index `row*40 + col` reads
only `[(row*40+col)*2048, (row*40+col+1)*2048)`); it writes only inside its
own 64-row by 32-column destination region, leaving every word outside that
region unchanged; and the regions of distinct macro-tiles are pairwise
disjoint. -/
theorem c8_disjoint_access (buf buf' out : Nat → Nat) (row col base p : Nat) :
    ((∀ k, k < 2048 → buf k = buf' k) →
      decode_mtile buf row col base out = decode_mtile buf' row col base out)
    ∧ ((∀ k, k < 2048 → buf ((row * 40 + col) * 2048 + k) = buf' ((row * 40 + col) * 2048 + k)) →
      decode_mtile (fun k => buf ((row * 40 + col) * 2048 + k)) row col base out
        = decode_mtile (fun k => buf' ((row * 40 + col) * 2048 + k)) row col base out)
    ∧ ((∀ dr dc, dr < 64 → dc < 32 → p ≠ base + dr * WIDTH + dc) →
      mtilePure buf row col base out p = out p)
    ∧ (∀ row' col' dr dc dr' dc', row < 12 → col < 40 → row' < 12 → col' < 40 →
        dr < 64 → dc < 32 → dr' < 64 → dc' < 32 → (row ≠ row' ∨ col ≠ col') →
        (row * 64 + dr) * WIDTH + col * 32 + dc
          ≠ (row' * 64 + dr') * WIDTH + col' * 32 + dc') := by
  have hW : WIDTH = 1280 := rfl
  refine ⟨decode_mtile_reads buf buf' row col base out, ?_,
    mtilePure_outside buf out row col base p, ?_⟩
  · intro h
    exact decode_mtile_reads _ _ row col base out (fun k hk => h k hk)
  · intro row' col' dr dc dr' dc' h1 h2 h3 h4 h5 h6 h7 h8 h9
    rw [hW]
    omega

theorem c8_disjoint_access_witness :
    (0 * 64 + 5) * WIDTH + 0 * 32 + 9 ≠ (0 * 64 + 5) * WIDTH + 1 * 32 + 9 :=
  (c8_disjoint_access (fun k => k) (fun k => k) (fun _ => 0) 0 0 0 0).2.2.2 0 1 5 9 5 9
    (by decide) (by decide) (by decide) (by decide) (by decide) (by decide) (by decide)
    (by decide) (by decide)

/-- C9: `decode_utile` is an involution on the 64 words of a block: applied
twice it restores the block, because the utile table is its own inverse. -/
theorem c9_utile_involution (buf : Nat → Nat) (k : Nat) (hk : k < 64) :
    decode_utile (decode_utile buf) k = buf k := by
  rw [decode_utile_spec' (decode_utile buf) k hk]
  rw [decode_utile_spec' buf _ (utab_lt (k / 8) (by omega) (k % 8) (by omega))]
  exact congrArg buf (utab_invol k hk)

theorem c9_utile_involution_witness :
    decode_utile (decode_utile (fun k => 3 * k)) 29 = 3 * 29 :=
  c9_utile_involution (fun k => 3 * k) 29 (by decide)

/-- C10: for each row parity and column class, the composed placement map
`i ↦ (final_row, uc)` is a bijection from `[0,32)` onto `[0,8) x [0,4)`:
it is bounded, injective, and surjective (with explicit inverse `invPlace`);
consequently, within one macro-tile decode the destination addresses of
distinct `(i, r, c)` write triples never coincide — no destination word is
written twice. -/
theorem c10_placement_bijection (odd colm : Nat) (ho : odd < 2) (hcm : colm < 4) :
    (∀ i, i < 32 → (place odd colm i).1 < 8 ∧ (place odd colm i).2 < 4)
    ∧ (∀ i i', i < 32 → i' < 32 → place odd colm i = place odd colm i' → i = i')
    ∧ (∀ fr uc, fr < 8 → uc < 4 → invPlace odd colm fr uc < 32
        ∧ place odd colm (invPlace odd colm fr uc) = (fr, uc))
    ∧ (∀ base i r c i' r' c', i < 32 → r < 8 → c < 8 → i' < 32 → r' < 8 → c' < 8 →
        base + ((place odd colm i).1 * 8 * WIDTH + (place odd colm i).2 * 8) + r * WIDTH + c
          = base + ((place odd colm i').1 * 8 * WIDTH + (place odd colm i').2 * 8)
            + r' * WIDTH + c'
        → i = i' ∧ r = r' ∧ c = c') := by
  have hW : WIDTH = 1280 := rfl
  refine ⟨fun i hi => place_bounds odd ho colm hcm i hi,
    fun i i' hi hi' h => place_inj odd colm i i' ho hcm hi hi' h,
    fun fr uc hfr huc => invPlace_place odd ho colm hcm fr hfr uc huc, ?_⟩
  intro base i r c i' r' c' hi hr hc hi' hr' hc' h
  obtain ⟨hb1, hb2⟩ := place_bounds odd ho colm hcm i hi
  obtain ⟨hb3, hb4⟩ := place_bounds odd ho colm hcm i' hi'
  rw [hW] at h
  have hcomp : (place odd colm i).1 = (place odd colm i').1
      ∧ (place odd colm i).2 = (place odd colm i').2 ∧ r = r' ∧ c = c' := by omega
  obtain ⟨hp1, hp2, hR, hC⟩ := hcomp
  exact ⟨place_inj odd colm i i' ho hcm hi hi' (Prod.ext hp1 hp2), hR, hC⟩

theorem c10_placement_bijection_witness :
    invPlace 1 2 3 1 < 32 ∧ place 1 2 (invPlace 1 2 3 1) = (3, 1) :=
  (c10_placement_bijection 1 2 (by decide) (by decide)).2.2.1 3 1 (by decide) (by decide)
